import Mathlib

/-!
Verification of `src/img_color.py` (room202math/gui).

Shallow embedding of the color-profile extraction, codec, cache
synchronization and nearest-color matching code of `img_color.py`.
Colors are embedded as rational triples (the float channels of the
source), pixel counts as naturals, and paths as lists of components
(lists of characters), matching `pathlib`'s component view of a path.
-/

namespace ImgColor

/-- A color: three numeric channels (source stores float32 vectors). -/
def Color : Type := ℚ × ℚ × ℚ

instance : DecidableEq Color := by unfold Color; infer_instance

instance : Inhabited Color := ⟨((0 : ℚ), (0 : ℚ), (0 : ℚ))⟩

/-- The OS path convention in force when a `Path` is rendered to or parsed
from a string (`pathlib.Path` on the running OS). -/
inductive PathConv where
  | posix
  | windows
deriving DecidableEq

/-- The separator `str(Path)` inserts between components: `/` on POSIX,
`\` on Windows. -/
def sepChar : PathConv → Char
  | .posix => '/'
  | .windows => '\\'

/-- Which characters the `Path` constructor treats as separators when
parsing a string: POSIX paths split only on `/`; Windows paths split on
both `/` and `\`. -/
def isSep : PathConv → Char → Bool
  | .posix, c => c = '/'
  | .windows, c => c = '/' || c = '\\'

/-- `str(Path)`: the components joined by the native separator
(relative paths; `img_color.py` line 71 stores
`np.array([self.path]).astype(str)`, i.e. `str(self.path)`). -/
def joinComps (conv : PathConv) : List (List Char) → List Char
  | [] => []
  | [c] => c
  | c :: rest => c ++ sepChar conv :: joinComps conv rest

/-- Split a character list at every separator, keeping empty pieces
(pieces between adjacent separators). -/
def splitChars (conv : PathConv) : List Char → List (List Char)
  | [] => [[]]
  | c :: cs =>
    if isSep conv c then [] :: splitChars conv cs
    else
      match splitChars conv cs with
      | [] => [[c]]
      | p :: ps => (c :: p) :: ps

/-- `Path(string)`: parse a string into components, dropping empty pieces
(`pathlib` collapses repeated separators; line 39 does
`Path(stats['path'][0])`). -/
def parseComps (conv : PathConv) (s : List Char) : List (List Char) :=
  (splitChars conv s).filter (fun c => !c.isEmpty)

/-- The in-memory data of a `Picture` relevant to the cache: its `path`
(as `pathlib` components), `counts` (per-cluster pixel counts, the
profile's weights), `palette` (cluster centers) and `dominant` color
(`img_color.py` lines 39-42 / 45-47, 90-93). -/
structure Profile where
  path : List (List Char)
  counts : List ℕ
  palette : List Color
  dominant : Color
deriving DecidableEq

/-- The content of one `.npz` cache record: the four arrays saved by
`Picture.export_stats` (lines 69-74). The path is saved as the single
string `str(self.path)`. -/
structure CacheRec where
  pathChars : List Char
  counts : List ℕ
  palette : List Color
  dominant : Color
deriving DecidableEq

instance : Inhabited CacheRec := ⟨⟨[], [], [], default⟩⟩

/-- `Picture.export_stats` (lines 65-74): serialize the profile into an
`.npz` record. `path` is stored as `str(self.path)` in the convention of
the encoding OS; `counts`, `palette` and `dominant` are stored exactly
(`np.savez` archives the arrays unchanged). -/
def encodeRec (conv : PathConv) (p : Profile) : CacheRec :=
  { pathChars := joinComps conv p.path
    counts := p.counts
    palette := p.palette
    dominant := p.dominant }

/-- `Picture.__init__` from a stats record (lines 38-42): `np.load` the
record and populate the fields; the path string is re-parsed with
`Path(...)` under the convention of the decoding OS. -/
def decodeRec (conv : PathConv) (r : CacheRec) : Profile :=
  { path := parseComps conv r.pathChars
    counts := r.counts
    palette := r.palette
    dominant := r.dominant }

theorem isSep_sepChar (conv : PathConv) : isSep conv (sepChar conv) = true := by
  cases conv <;> rfl

theorem splitChars_sep_free (conv : PathConv) (c : List Char)
    (hc : ∀ ch ∈ c, isSep conv ch = false) : splitChars conv c = [c] := by
  induction c with
  | nil => rfl
  | cons ch cs ih =>
    have hch : isSep conv ch = false := hc ch (List.mem_cons_self _ _)
    have hcs : splitChars conv cs = [cs] := ih (fun x hx => hc x (List.mem_cons_of_mem _ hx))
    simp [splitChars, hch, hcs]

theorem splitChars_append (conv : PathConv) (c : List Char)
    (hc : ∀ ch ∈ c, isSep conv ch = false) (t : List Char) :
    splitChars conv (c ++ sepChar conv :: t) = c :: splitChars conv t := by
  induction c with
  | nil => simp [splitChars, isSep_sepChar]
  | cons ch cs ih =>
    have hch : isSep conv ch = false := hc ch (List.mem_cons_self _ _)
    have hcs := ih (fun x hx => hc x (List.mem_cons_of_mem _ hx))
    simp only [List.cons_append, splitChars, hch, Bool.false_eq_true, if_false]
    rw [show splitChars conv (cs.append (sepChar conv :: t)) = cs :: splitChars conv t from hcs]

theorem parse_join (conv : PathConv) (comps : List (List Char))
    (h : ∀ c ∈ comps, c ≠ [] ∧ ∀ ch ∈ c, isSep conv ch = false) :
    parseComps conv (joinComps conv comps) = comps := by
  induction comps with
  | nil => rfl
  | cons c rest ih =>
    obtain ⟨hc, hsep⟩ := h c (List.mem_cons_self _ _)
    cases rest with
    | nil =>
      simp only [joinComps, parseComps, splitChars_sep_free conv c hsep]
      have hne : (!c.isEmpty) = true := by
        cases c with
        | nil => exact absurd rfl hc
        | cons a b => rfl
      simp [List.filter, hne]
    | cons c2 rest2 =>
      have hjoin : joinComps conv (c :: c2 :: rest2)
          = c ++ sepChar conv :: joinComps conv (c2 :: rest2) := rfl
      have ihr := ih (fun x hx => h x (List.mem_cons_of_mem _ hx))
      simp only [hjoin, parseComps, splitChars_append conv c hsep]
      simp only [List.filter]
      have : (!c.isEmpty) = true := by
        cases c with
        | nil => exact absurd rfl hc
        | cons a b => rfl
      rw [this]
      simpa [parseComps] using ihr

/-- A concrete profile used to exhibit the cross-OS path behavior of the
codec: its source path has the two components `a` and `b`. -/
def pAB : Profile :=
  { path := [['a'], ['b']]
    counts := [1]
    palette := [((0 : ℚ), (0 : ℚ), (0 : ℚ))]
    dominant := ((0 : ℚ), (0 : ℚ), (0 : ℚ)) }

/-- C3 counterexample: the codec does not normalize path separators.
`export_stats` stores `str(self.path)` in the native convention of the
encoding OS, so the record of the path `a/b` written on Windows holds
the string `a\b`; decoded on POSIX, `Path('a\b')` is the single
component `a\b`, not the original two-component path. The round-tripped
identifier is therefore not equal regardless of the originating OS
convention, refuting the claim at this concrete profile. -/
theorem C3_counterexample :
    decodeRec PathConv.posix (encodeRec PathConv.windows pAB) ≠ pAB := by
  decide

/-- C3 (amended): decoding the record produced by encoding a valid
profile yields an equal profile — weights, palette and dominant are
stored and restored exactly, and the source path round-trips to an equal
value — provided encoding and decoding happen under the same OS path
convention (the codec stores the native `str(path)` and performs no
separator normalization). Valid means: every path component is nonempty
and free of separator characters. -/
theorem C3_roundtrip_same_conv (conv : PathConv) (p : Profile)
    (h : ∀ c ∈ p.path, c ≠ [] ∧ ∀ ch ∈ c, isSep conv ch = false) :
    decodeRec conv (encodeRec conv p) = p := by
  cases p with
  | mk path counts palette dominant =>
    simp [encodeRec, decodeRec, parse_join conv path h]

/-- C3 witness: the round-trip theorem applied to the concrete profile
`pAB` under the POSIX convention. -/
theorem C3_roundtrip_witness :
    (∀ c ∈ pAB.path, c ≠ [] ∧ ∀ ch ∈ c, isSep PathConv.posix ch = false)
    ∧ decodeRec PathConv.posix (encodeRec PathConv.posix pAB) = pAB :=
  ⟨by decide, C3_roundtrip_same_conv PathConv.posix pAB (by decide)⟩

/-!
Clustering post-processing (`Picture.cluster`, lines 76-93).

`cv2.kmeans` is an external collaborator; it is embedded at its
interface: it returns a `palette` of `K` cluster centers and a list of
`labels`, one per pixel, each in `[0, K)`. The code of the repository
then computes `_, self.counts = np.unique(labels, return_counts=True)`
(line 92) and `self.dominant = self.palette[np.argmax(self.counts)]`
(line 93); those two lines are what is embedded below.
-/

/-- `np.unique(labels)`: the distinct values occurring in `labels`, in
ascending order. -/
def uniqueVals (labels : List ℕ) : List ℕ :=
  (List.range (labels.foldr max 0 + 1)).filter (fun v => decide (v ∈ labels))

/-- `np.unique(labels, return_counts=True)[1]` (line 92): for each
distinct value present in `labels` (ascending), the number of its
occurrences. Values of `[0, K)` that never occur in `labels` (empty
clusters) contribute no entry at all. -/
def uniqueCounts (labels : List ℕ) : List ℕ :=
  (uniqueVals labels).map (fun v => List.count v labels)

/-- `np.argmax`: the index of the first occurrence of the maximum. -/
def npArgmax (l : List ℕ) : ℕ := List.indexOf (l.foldr max 0) l

/-- Line 93: `self.dominant = self.palette[np.argmax(self.counts)]`
(out-of-range indexing is embedded as a default, unreachable under the
kmeans interface contract). -/
def clusterDominant (palette : List Color) (labels : List ℕ) : Color :=
  palette.getD (npArgmax (uniqueCounts labels)) default

theorem le_foldr_max (v : ℕ) (l : List ℕ) (h : v ∈ l) : v ≤ l.foldr max 0 := by
  induction l with
  | nil => cases h
  | cons x xs ih =>
    rcases List.mem_cons.mp h with rfl | h2
    · exact le_max_left _ _
    · exact (ih h2).trans (le_max_right _ _)

theorem foldr_max_mem (l : List ℕ) (h : l ≠ []) : l.foldr max 0 ∈ l := by
  induction l with
  | nil => exact absurd rfl h
  | cons x xs ih =>
    cases xs with
    | nil => simp
    | cons y ys =>
      have hmem := ih (by simp)
      rcases max_choice x ((y :: ys).foldr max 0) with hx | hx


      · rw [List.foldr_cons, hx]; exact List.mem_cons_self _ _
      · rw [List.foldr_cons, hx]; exact List.mem_cons_of_mem _ hmem

theorem mem_uniqueVals (v : ℕ) (l : List ℕ) : v ∈ uniqueVals l ↔ v ∈ l := by
  simp only [uniqueVals, List.mem_filter, List.mem_range, decide_eq_true_eq]
  exact ⟨fun h => h.2, fun h => ⟨Nat.lt_succ_of_le (le_foldr_max v l h), h⟩⟩

theorem uniqueVals_nodup (l : List ℕ) : (uniqueVals l).Nodup :=
  (List.nodup_range _).filter _

theorem uniqueVals_ne_nil (l : List ℕ) (h : l ≠ []) : uniqueVals l ≠ [] := by
  intro hcon
  have : l.foldr max 0 ∈ uniqueVals l := (mem_uniqueVals _ l).mpr (foldr_max_mem l h)
  rw [hcon] at this
  cases this

/-- The weights delivered by line 92 always sum to the number of labels,
i.e. to the number of pixels. -/
theorem uniqueCounts_sum (l : List ℕ) : (uniqueCounts l).sum = l.length := by
  have hperm : (uniqueVals l).Perm l.dedup := by
    rw [List.perm_ext_iff_of_nodup (uniqueVals_nodup l) l.nodup_dedup]
    intro a
    rw [mem_uniqueVals, List.mem_dedup]
  calc (uniqueCounts l).sum
      = (l.dedup.map (fun v => List.count v l)).sum := (hperm.map _).sum_eq
    _ = l.length := List.sum_map_count_dedup_eq_length l

theorem uniqueCounts_pos (l : List ℕ) (w : ℕ) (h : w ∈ uniqueCounts l) : 0 < w := by
  obtain ⟨v, hv, rfl⟩ := List.mem_map.mp h
  exact List.count_pos_iff.mpr ((mem_uniqueVals v l).mp hv)

theorem uniqueCounts_length_le (K : ℕ) (l : List ℕ) (h : ∀ v ∈ l, v < K) :
    (uniqueCounts l).length ≤ K := by
  by_cases hl : l = []
  · subst hl
    simp [uniqueCounts, uniqueVals]
  · have hm : l.foldr max 0 ∈ l := foldr_max_mem l hl
    have hK : l.foldr max 0 + 1 ≤ K := h _ hm
    calc (uniqueCounts l).length
        = (uniqueVals l).length := List.length_map _ _
      _ ≤ (List.range (l.foldr max 0 + 1)).length := List.length_filter_le _ _
      _ = l.foldr max 0 + 1 := List.length_range _
      _ ≤ K := hK

theorem uniqueCounts_length_eq (K : ℕ) (l : List ℕ) (h : ∀ v ∈ l, v < K)
    (hall : ∀ j, j < K → j ∈ l) : (uniqueCounts l).length = K := by
  cases K with
  | zero => exact Nat.le_antisymm (uniqueCounts_length_le 0 l h) (Nat.zero_le _)
  | succ K2 =>
    have h0 : K2 ∈ l := hall K2 (Nat.lt_succ_self _)
    have hl : l ≠ [] := List.ne_nil_of_mem h0
    have hub : l.foldr max 0 ≤ K2 := Nat.lt_succ_iff.mp (h _ (foldr_max_mem l hl))
    have hlb : K2 ≤ l.foldr max 0 := le_foldr_max _ _ h0
    have hmax : l.foldr max 0 = K2 := Nat.le_antisymm hub hlb
    have hfull : uniqueVals l = List.range (K2 + 1) := by
      rw [uniqueVals, hmax]
      apply List.filter_eq_self.mpr
      intro a ha
      exact decide_eq_true (hall a (List.mem_range.mp ha))
    rw [uniqueCounts, hfull, List.length_map, List.length_range]

/-- C4: the dominant color computed on line 93 is exactly the palette
entry at the first index of the maximum weight, and that index is a
valid palette index — for every kmeans output with at least one pixel,
including outputs in which some of the K clusters are empty (the weight
list is then shorter than K, but the index stays in range). -/
theorem C4_dominant_is_argmax_palette_entry (palette : List Color) (labels : List ℕ)
    (hne : labels ≠ []) (hlab : ∀ v ∈ labels, v < palette.length) :
    clusterDominant palette labels
      = palette.getD (npArgmax (uniqueCounts labels)) default
    ∧ npArgmax (uniqueCounts labels) < palette.length := by
  refine ⟨rfl, ?_⟩
  have hcne : uniqueCounts labels ≠ [] := by
    intro hcon
    exact uniqueVals_ne_nil labels hne (by simpa [uniqueCounts] using hcon)
  have hmem : (uniqueCounts labels).foldr max 0 ∈ uniqueCounts labels :=
    foldr_max_mem _ hcne
  have h1 : npArgmax (uniqueCounts labels) < (uniqueCounts labels).length :=
    List.indexOf_lt_length.mpr hmem
  exact h1.trans_le (uniqueCounts_length_le _ labels hlab)

/-- C4 witness: the theorem applied to a two-color palette and the
concrete label list `[0, 1, 1]`. -/
theorem C4_dominant_witness :
    (([0, 1, 1] : List ℕ) ≠ [] ∧ ∀ v ∈ ([0, 1, 1] : List ℕ),
        v < ([((1 : ℚ), (1 : ℚ), (1 : ℚ)), ((2 : ℚ), (2 : ℚ), (2 : ℚ))] : List Color).length)
    ∧ (clusterDominant [((1 : ℚ), (1 : ℚ), (1 : ℚ)), ((2 : ℚ), (2 : ℚ), (2 : ℚ))] [0, 1, 1]
        = ([((1 : ℚ), (1 : ℚ), (1 : ℚ)), ((2 : ℚ), (2 : ℚ), (2 : ℚ))] : List Color).getD
            (npArgmax (uniqueCounts [0, 1, 1])) default
      ∧ npArgmax (uniqueCounts [0, 1, 1])
          < ([((1 : ℚ), (1 : ℚ), (1 : ℚ)), ((2 : ℚ), (2 : ℚ), (2 : ℚ))] : List Color).length) :=
  ⟨⟨by decide, by decide⟩,
    C4_dominant_is_argmax_palette_entry _ _ (by decide) (by decide)⟩

/-- C5 counterexample: a kmeans output with `K = 3` in which cluster `1`
receives no pixel (labels `[0, 0, 2]`, e.g. a three-pixel image with two
distinct colors). The weights computed on line 92 are `[2, 1]`: their
length is 2, not `K = 3`, and no degenerate zero-weight entry is
produced — `np.unique(..., return_counts=True)` simply omits empty
clusters, refuting the claimed invariant `len(weights) == K` (with
zero-weight padding in the degenerate case). -/
theorem C5_counterexample :
    uniqueCounts [0, 0, 2] = [2, 1]
    ∧ (uniqueCounts [0, 0, 2]).length ≠ 3
    ∧ (0 : ℕ) ∉ uniqueCounts [0, 0, 2] := by
  decide

/-- C5 (amended): for every kmeans output with labels in `[0, K)`, the
weight list of line 92 has length at most `K`, equal to `K` exactly when
every cluster receives at least one pixel; empty clusters are omitted
rather than recorded as zero-weight entries (every weight is strictly
positive), and in all cases the weights sum to the pixel count. (The
palette itself always has `K` entries — that is the kmeans interface
contract, not computed by the repository's code.) -/
theorem C5_weights_shape (K : ℕ) (labels : List ℕ) (hlab : ∀ v ∈ labels, v < K) :
    (uniqueCounts labels).length ≤ K
    ∧ (∀ w ∈ uniqueCounts labels, 0 < w)
    ∧ (uniqueCounts labels).sum = labels.length
    ∧ ((∀ j, j < K → j ∈ labels) → (uniqueCounts labels).length = K) :=
  ⟨uniqueCounts_length_le K labels hlab,
    fun w hw => uniqueCounts_pos labels w hw,
    uniqueCounts_sum labels,
    fun hall => uniqueCounts_length_eq K labels hlab hall⟩

/-- C5 witness: the amended theorem applied to `K = 3` and the concrete
label list `[0, 1, 2, 1]`. -/
theorem C5_weights_witness :
    (∀ v ∈ ([0, 1, 2, 1] : List ℕ), v < 3)
    ∧ ((uniqueCounts [0, 1, 2, 1]).length ≤ 3
      ∧ (∀ w ∈ uniqueCounts [0, 1, 2, 1], 0 < w)
      ∧ (uniqueCounts [0, 1, 2, 1]).sum = ([0, 1, 2, 1] : List ℕ).length
      ∧ ((∀ j, j < 3 → j ∈ ([0, 1, 2, 1] : List ℕ))
          → (uniqueCounts [0, 1, 2, 1]).length = 3)) :=
  ⟨by decide, C5_weights_shape 3 [0, 1, 2, 1] (by decide)⟩

/-- C6: for every image of `w × h` pixels that is clustered — one label
per pixel, so the label list has length `w * h` — the weights of line 92
sum to `w * h`, the total pixel count. -/
theorem C6_weights_sum_pixel_count (w h : ℕ) (labels : List ℕ)
    (hpix : labels.length = w * h) :
    (uniqueCounts labels).sum = w * h := by
  rw [uniqueCounts_sum labels, hpix]

/-- C6 witness: the theorem applied to a 3-by-2 image whose six pixels
received the labels `[0, 0, 1, 1, 1, 4]`. -/
theorem C6_weights_sum_witness :
    ([0, 0, 1, 1, 1, 4] : List ℕ).length = 3 * 2
    ∧ (uniqueCounts [0, 0, 1, 1, 1, 4]).sum = 3 * 2 :=
  ⟨by decide, C6_weights_sum_pixel_count 3 2 [0, 0, 1, 1, 1, 4] (by decide)⟩

/-!
Nearest-color matching (`Picture.get_distance_to`, lines 95-100, and
`Collection.get_closest`, lines 156-168).

The source compares Euclidean norms `np.linalg.norm(color - other)`;
every comparison in the matcher (`min` over the palette, `distance <
min_distance`) is between nonnegative norms, so the embedding carries
squared distances over ℚ — a strictly monotone transform that preserves
every comparison exactly. The initial accumulator `min_distance = 1e9`
of line 159 accordingly becomes `(10^9)^2 = 10^18`.
-/

/-- Squared Euclidean distance between two colors. -/
def sqDist (a b : Color) : ℚ :=
  (a.1 - b.1) ^ 2 + (a.2.1 - b.2.1) ^ 2 + (a.2.2 - b.2.2) ^ 2

/-- Python's `min` over a nonempty list (line 100); the `[]` case is the
crash case of the source and never arises under the palette contract. -/
def listMin : List ℚ → ℚ
  | [] => 0
  | [x] => x
  | x :: xs => min x (listMin xs)

/-- `Picture.get_distance_to` (lines 95-100), squared: the minimum over
all palette entries of the (squared) Euclidean distance from that entry
to the query color — not only the dominant entry. -/
def getDistanceSqTo (p : Profile) (q : Color) : ℚ :=
  listMin (p.palette.map (fun c => sqDist c q))

/-- The loop of `Collection.get_closest` (lines 162-166): scan the
pictures in order, keeping the strictly best (squared) distance seen so
far and the picture that achieved it. -/
def getClosestAux (q : Color) : List Profile → ℚ → Option Profile → Option Profile
  | [], _, best => best
  | p :: ps, minD, best =>
    if getDistanceSqTo p q < minD then getClosestAux q ps (getDistanceSqTo p q) (some p)
    else getClosestAux q ps minD best

/-- `Collection.get_closest` (lines 156-168): `min_distance = 1e9`
(squared: `10^18`), `closest = None`, then the scan. -/
def getClosest (pics : List Profile) (q : Color) : Option Profile :=
  getClosestAux q pics (10 ^ 18) none

/-- Lines 167-168: `os.startfile(closest.path); return closest.path`.
When the scan left `closest` as `None`, the attribute access on `None`
raises instead of yielding a source identifier; the failure is embedded
as `Except.error`. -/
def getClosestOutcome (pics : List Profile) (q : Color) : Except Unit (List (List Char)) :=
  match getClosest pics q with
  | some p => Except.ok p.path
  | none => Except.error ()

/-- A color whose three channels lie in the RGB range `[0, 255]`. -/
def inRGB (c : Color) : Prop :=
  0 ≤ c.1 ∧ c.1 ≤ 255 ∧ 0 ≤ c.2.1 ∧ c.2.1 ≤ 255 ∧ 0 ≤ c.2.2 ∧ c.2.2 ≤ 255

instance (c : Color) : Decidable (inRGB c) := by unfold inRGB; infer_instance

theorem listMin_le (l : List ℚ) (x : ℚ) (h : x ∈ l) : listMin l ≤ x := by
  induction l with
  | nil => cases h
  | cons a t ih =>
    cases t with
    | nil =>
      rcases List.mem_cons.mp h with rfl | h2
      · exact le_refl _
      · cases h2
    | cons b t2 =>
      rcases List.mem_cons.mp h with rfl | h2
      · exact min_le_left _ _
      · exact (min_le_right _ _).trans (ih h2)

theorem sq_diff_le_rgb (x y : ℚ) (hx0 : 0 ≤ x) (hx : x ≤ 255) (hy0 : 0 ≤ y)
    (hy : y ≤ 255) : (x - y) ^ 2 ≤ 65025 := by
  have h1 : -(255 : ℚ) ≤ x - y := by linarith
  have h2 : x - y ≤ 255 := by linarith
  calc (x - y) ^ 2 ≤ (255 : ℚ) ^ 2 := sq_le_sq' h1 h2
    _ = 65025 := by norm_num

theorem sqDist_le_rgb (a b : Color) (ha : inRGB a) (hb : inRGB b) :
    sqDist a b ≤ 195075 := by
  obtain ⟨ha1, ha2, ha3, ha4, ha5, ha6⟩ := ha
  obtain ⟨hb1, hb2, hb3, hb4, hb5, hb6⟩ := hb
  have e1 := sq_diff_le_rgb a.1 b.1 ha1 ha2 hb1 hb2
  have e2 := sq_diff_le_rgb a.2.1 b.2.1 ha3 ha4 hb3 hb4
  have e3 := sq_diff_le_rgb a.2.2 b.2.2 ha5 ha6 hb5 hb6
  unfold sqDist
  linarith

theorem dist_lt_threshold (p : Profile) (q : Color) (hpal : p.palette ≠ [])
    (hc : ∀ c ∈ p.palette, inRGB c) (hq : inRGB q) :
    getDistanceSqTo p q < 10 ^ 18 := by
  cases hp : p.palette with
  | nil => exact absurd hp hpal
  | cons c0 rest =>
    have hm : sqDist c0 q ∈ p.palette.map (fun c => sqDist c q) := by
      rw [hp]; exact List.mem_map_of_mem _ (List.mem_cons_self _ _)
    have h1 : getDistanceSqTo p q ≤ sqDist c0 q := listMin_le _ _ hm
    have h2 : sqDist c0 q ≤ 195075 :=
      sqDist_le_rgb c0 q (hc c0 (by rw [hp]; exact List.mem_cons_self _ _)) hq
    calc getDistanceSqTo p q ≤ 195075 := h1.trans h2
      _ < 10 ^ 18 := by norm_num

theorem get_cons_fin_succ {A : Type} (a : A) (l : List A) (i : Fin l.length) :
    (a :: l).get i.succ = l.get i := rfl

theorem getClosestAux_stay (q : Color) (l : List Profile) (minD : ℚ)
    (best : Option Profile) (h : ∀ p ∈ l, ¬ getDistanceSqTo p q < minD) :
    getClosestAux q l minD best = best := by
  induction l with
  | nil => rfl
  | cons p ps ih =>
    rw [getClosestAux, if_neg (h p (List.mem_cons_self _ _))]
    exact ih (fun x hx => h x (List.mem_cons_of_mem _ hx))

theorem getClosestAux_found (q : Color) (l : List Profile) :
    ∀ (minD : ℚ) (best : Option Profile),
    (∃ p ∈ l, getDistanceSqTo p q < minD) →
    ∃ i : Fin l.length,
      getClosestAux q l minD best = some (l.get i)
      ∧ getDistanceSqTo (l.get i) q < minD
      ∧ (∀ j : Fin l.length,
          getDistanceSqTo (l.get i) q ≤ getDistanceSqTo (l.get j) q)
      ∧ (∀ j : Fin l.length, (j : ℕ) < (i : ℕ) →
          minD ≤ getDistanceSqTo (l.get j) q
          ∨ getDistanceSqTo (l.get i) q < getDistanceSqTo (l.get j) q) := by
  induction l with
  | nil =>
    intro minD best h
    obtain ⟨p, hp, _⟩ := h
    cases hp
  | cons p ps ih =>
    intro minD best h
    by_cases hd : getDistanceSqTo p q < minD
    · by_cases hex : ∃ p2 ∈ ps, getDistanceSqTo p2 q < getDistanceSqTo p q
      · obtain ⟨i2, he, hlt, hmin, hfirst⟩ := ih (getDistanceSqTo p q) (some p) hex
        refine ⟨i2.succ, ?_, hlt.trans hd, ?_, ?_⟩
        · rw [getClosestAux, if_pos hd, get_cons_fin_succ]
          exact he
        · intro j
          refine Fin.cases ?_ ?_ j
          · rw [get_cons_fin_succ, List.get_cons_zero]
            exact le_of_lt hlt
          · intro jj
            rw [get_cons_fin_succ, get_cons_fin_succ]
            exact hmin jj
        · intro j hj
          refine Fin.cases ?_ ?_ j hj
          · intro _
            rw [get_cons_fin_succ, List.get_cons_zero]
            exact Or.inr hlt
          · intro jj hjj
            have hjj2 : (jj : ℕ) < (i2 : ℕ) := by
              simpa [Fin.val_succ] using hjj
            rw [get_cons_fin_succ, get_cons_fin_succ]
            rcases hfirst jj hjj2 with hcase | hcase
            · exact Or.inr (hlt.trans_le hcase)
            · exact Or.inr hcase
      · have hstay : getClosestAux q ps (getDistanceSqTo p q) (some p) = some p :=
          getClosestAux_stay q ps _ _ (fun x hx hxlt => hex ⟨x, hx, hxlt⟩)
        refine ⟨⟨0, by simp⟩, ?_, hd, ?_, ?_⟩
        · rw [getClosestAux, if_pos hd]
          exact hstay
        · intro j
          refine Fin.cases ?_ ?_ j
          · exact le_refl _
          · intro jj
            rw [get_cons_fin_succ]
            have : ¬ getDistanceSqTo (ps.get jj) q < getDistanceSqTo p q :=
              fun hcon => hex ⟨ps.get jj, List.get_mem ps jj.1 jj.2, hcon⟩
            exact le_of_not_lt this
        · intro j hj
          exact absurd hj (by simp)
    · have hex : ∃ p2 ∈ ps, getDistanceSqTo p2 q < minD := by
        obtain ⟨p2, hp2, hlt2⟩ := h
        rcases List.mem_cons.mp hp2 with rfl | hmem
        · exact absurd hlt2 hd
        · exact ⟨p2, hmem, hlt2⟩
      obtain ⟨i2, he, hlt, hmin, hfirst⟩ := ih minD best hex
      refine ⟨i2.succ, ?_, hlt, ?_, ?_⟩
      · rw [getClosestAux, if_neg hd, get_cons_fin_succ]
        exact he
      · intro j
        refine Fin.cases ?_ ?_ j
        · rw [get_cons_fin_succ, List.get_cons_zero]
          exact le_of_lt (hlt.trans_le (le_of_not_lt hd))
        · intro jj
          rw [get_cons_fin_succ, get_cons_fin_succ]
          exact hmin jj
      · intro j hj
        refine Fin.cases ?_ ?_ j hj
        · intro _
          rw [get_cons_fin_succ, List.get_cons_zero]
          exact Or.inl (le_of_not_lt hd)
        · intro jj hjj
          have hjj2 : (jj : ℕ) < (i2 : ℕ) := by
            simpa [Fin.val_succ] using hjj
          rw [get_cons_fin_succ, get_cons_fin_succ]
          exact hfirst jj hjj2

/-- C7: for every non-empty collection whose palettes are non-empty
RGB-range colors and every RGB query color, `get_closest` scores each
picture by `get_distance_to` — the minimum distance from the query to
any of its palette entries — and returns the picture at an index
achieving the globally minimal score, with every strictly earlier
picture scoring strictly worse (ties broken in favor of the first
picture in the collection's order). -/
theorem C7_closest_first_argmin (pics : List Profile) (q : Color)
    (hne : pics ≠ []) (hq : inRGB q)
    (hp : ∀ p ∈ pics, p.palette ≠ [] ∧ ∀ c ∈ p.palette, inRGB c) :
    ∃ i : Fin pics.length,
      getClosest pics q = some (pics.get i)
      ∧ (∀ j : Fin pics.length,
          getDistanceSqTo (pics.get i) q ≤ getDistanceSqTo (pics.get j) q)
      ∧ (∀ j : Fin pics.length, (j : ℕ) < (i : ℕ) →
          getDistanceSqTo (pics.get i) q < getDistanceSqTo (pics.get j) q) := by
  have hbound : ∀ p ∈ pics, getDistanceSqTo p q < 10 ^ 18 := by
    intro p hmem
    exact dist_lt_threshold p q (hp p hmem).1 (hp p hmem).2 hq
  have hex : ∃ p ∈ pics, getDistanceSqTo p q < 10 ^ 18 := by
    cases pics with
    | nil => exact absurd rfl hne
    | cons p0 rest =>
      exact ⟨p0, List.mem_cons_self _ _, hbound p0 (List.mem_cons_self _ _)⟩
  obtain ⟨i, he, _, hmin, hfirst⟩ := getClosestAux_found q pics (10 ^ 18) none hex
  refine ⟨i, he, hmin, ?_⟩
  intro j hj
  rcases hfirst j hj with hcase | hcase
  · exact absurd hcase (not_le.mpr (hbound (pics.get j) (List.get_mem pics j.1 j.2)))
  · exact hcase

/-- A concrete one-picture collection used as the matcher witness. -/
def picW : Profile :=
  { path := [['w']]
    counts := [3]
    palette := [((10 : ℚ), (10 : ℚ), (10 : ℚ))]
    dominant := ((10 : ℚ), (10 : ℚ), (10 : ℚ)) }

/-- C7 witness: the matcher theorem applied to the one-picture
collection `[picW]` and the query color `(0, 0, 0)`. -/
theorem C7_closest_witness :
    ∃ i : Fin ([picW] : List Profile).length,
      getClosest [picW] ((0 : ℚ), (0 : ℚ), (0 : ℚ)) = some (([picW] : List Profile).get i) := by
  obtain ⟨i, hi, _, _⟩ :=
    C7_closest_first_argmin [picW] ((0 : ℚ), (0 : ℚ), (0 : ℚ))
      (by decide) (by decide) (by decide)
  exact ⟨i, hi⟩

/-- C10: for a collection containing no pictures, the scan of
`get_closest` leaves the accumulator `closest` as `None`, so no picture
is ever returned: line 167's attribute access on `None` fails instead of
yielding a source identifier. -/
theorem C10_empty_collection_fails (q : Color) :
    getClosest ([] : List Profile) q = none
    ∧ getClosestOutcome ([] : List Profile) q = Except.error () :=
  ⟨rfl, rfl⟩

/-!
Cache synchronization (`Collection.__init__`, lines 119-153).

Keys are image base names (file name with the extension stripped, line
138/139); the cache directory `pic_stats/` is an association list from
key to `.npz` record content, so list equality is byte-identity of the
record files. The expensive image-loading-plus-clustering pipeline of a
cache miss is an external effect chain and is embedded as an abstract
deterministic function `extract : key → Profile` together with an
explicit event trace.
-/

/-- Filesystem/computation events performed while building the
collection: loading an `.npz` record (`np.load`, line 38), reading an
image file (`io.imread`, line 51), running the clustering
(`cv2.kmeans`, line 90), and saving an `.npz` record (`np.savez`,
line 69). -/
inductive Ev where
  | loadNpz : String → Ev
  | readImg : String → Ev
  | runKmeans : String → Ev
  | saveNpz : String → Ev
deriving DecidableEq

/-- `Picture.__init__` from a stats record (lines 36-43): `np.load` the
record, populate the computed fields from it, then call
`self.make_image()` (line 43) — which reads the image file with
`io.imread` (line 51). No clustering is run. Returns the resulting
profile and the event trace of the construction. -/
def pictureFromStats (conv : PathConv) (k : String) (r : CacheRec) :
    Profile × List Ev :=
  (decodeRec conv r, [Ev.loadNpz k, Ev.readImg k])

/-- `Picture.__init__` from a path (lines 44-47): `make_image()` reads
the image file, then `cluster()` runs the clustering. The composite
load-and-cluster computation is the abstract `extract`. -/
def pictureFromPath (extract : String → Profile) (k : String) :
    Profile × List Ev :=
  (extract k, [Ev.readImg k, Ev.runKmeans k])

/-- Writing `key.npz` (`np.savez` via `export_stats`, line 149):
replace the record if the key exists, else create it. -/
def updateCache : List (String × CacheRec) → String → CacheRec → List (String × CacheRec)
  | [], k, r => [(k, r)]
  | (k2, r2) :: t, k, r =>
    if k2 = k then (k, r) :: t else (k2, r2) :: updateCache t k r

/-- The outcome of a synchronization run: the in-memory pictures, the
cache directory contents afterwards, and the event trace. -/
structure SyncResult where
  profiles : List Profile
  cache : List (String × CacheRec)
  trace : List Ev

/-- The per-picture loop of `Collection.__init__` (lines 141-149).
`snap` is `data_names`, the set of cache keys enumerated once before the
loop (line 139); the membership test of line 142 is against this
snapshot, while a cache hit reads the record currently on disk. A miss
computes the profile and saves it (`export_stats`, line 149). -/
def syncLoop (conv : PathConv) (extract : String → Profile) (snap : List String) :
    List String → List (String × CacheRec) → SyncResult
  | [], cache => { profiles := [], cache := cache, trace := [] }
  | k :: ks, cache =>
    if k ∈ snap then
      let pr := pictureFromStats conv k ((List.lookup k cache).getD default)
      let res := syncLoop conv extract snap ks cache
      { profiles := pr.1 :: res.profiles
        cache := res.cache
        trace := pr.2 ++ res.trace }
    else
      let pr := pictureFromPath extract k
      let res := syncLoop conv extract snap ks (updateCache cache k (encodeRec conv pr.1))
      { profiles := pr.1 :: res.profiles
        cache := res.cache
        trace := (pr.2 ++ [Ev.saveNpz k]) ++ res.trace }

/-- The deletion loop of lines 151-153. Line 153 is
`(self.data_dir / name).with_suffix(".npz").unlink` — it builds the
bound method `unlink` but never calls it (no parentheses), so iterating
over the stale keys changes nothing on disk. -/
def unlinkNeverCalled (cache : List (String × CacheRec)) (staleKeys : List String) :
    List (String × CacheRec) :=
  staleKeys.foldl (fun c _ => c) cache

/-- `Collection.__init__` (lines 119-153): enumerate the cache snapshot,
run the per-picture loop, then run the (ineffective) deletion loop over
`data_names.difference(pic_names)`. -/
def sync (conv : PathConv) (extract : String → Profile) (pics : List String)
    (cache : List (String × CacheRec)) : SyncResult :=
  let snap := cache.map Prod.fst
  let res := syncLoop conv extract snap pics cache
  let stale := snap.filter (fun k => decide (k ∉ pics))
  { res with cache := unlinkNeverCalled res.cache stale }

theorem unlinkNeverCalled_eq (cache : List (String × CacheRec))
    (staleKeys : List String) : unlinkNeverCalled cache staleKeys = cache := by
  induction staleKeys with
  | nil => rfl
  | cons k ks ih => exact ih

theorem updateCache_key_mem (cache : List (String × CacheRec)) (k : String)
    (r : CacheRec) : k ∈ (updateCache cache k r).map Prod.fst := by
  induction cache with
  | nil => simp [updateCache]
  | cons e t ih =>
    obtain ⟨k2, r2⟩ := e
    by_cases hk : k2 = k
    · simp [updateCache, hk]
    · simp only [updateCache, if_neg hk, List.map_cons]
      exact List.mem_cons_of_mem _ ih

theorem updateCache_keys_mono (cache : List (String × CacheRec)) (k a : String)
    (r : CacheRec) (h : a ∈ cache.map Prod.fst) :
    a ∈ (updateCache cache k r).map Prod.fst := by
  induction cache with
  | nil => cases h
  | cons e t ih =>
    obtain ⟨k2, r2⟩ := e
    by_cases hk : k2 = k
    · rcases List.mem_cons.mp h with h0 | h0
      · subst hk
        simp [updateCache, h0]
      · simp only [updateCache, if_pos hk, List.map_cons]
        exact List.mem_cons_of_mem _ h0
    · rcases List.mem_cons.mp h with h0 | h0
      · simp [updateCache, if_neg hk, h0]
      · simp only [updateCache, if_neg hk, List.map_cons]
        exact List.mem_cons_of_mem _ (ih h0)

theorem syncLoop_keys_mono (conv : PathConv) (extract : String → Profile)
    (snap : List String) (ks : List String) :
    ∀ (cache : List (String × CacheRec)) (a : String), a ∈ cache.map Prod.fst →
      a ∈ (syncLoop conv extract snap ks cache).cache.map Prod.fst := by
  induction ks with
  | nil => intro cache a h; exact h
  | cons k ks2 ih =>
    intro cache a h
    by_cases hk : k ∈ snap
    · simp only [syncLoop, if_pos hk]
      exact ih cache a h
    · simp only [syncLoop, if_neg hk]
      exact ih _ a (updateCache_keys_mono cache k a _ h)

theorem syncLoop_covers (conv : PathConv) (extract : String → Profile)
    (snap : List String) (ks : List String) :
    ∀ (cache : List (String × CacheRec)) (k : String), k ∈ ks →
      k ∈ snap ∨ k ∈ (syncLoop conv extract snap ks cache).cache.map Prod.fst := by
  induction ks with
  | nil => intro cache k h; cases h
  | cons k0 ks2 ih =>
    intro cache k h
    by_cases hk0 : k0 ∈ snap
    · simp only [syncLoop, if_pos hk0]
      rcases List.mem_cons.mp h with rfl | h2
      · exact Or.inl hk0
      · exact ih cache k h2
    · simp only [syncLoop, if_neg hk0]
      rcases List.mem_cons.mp h with rfl | h2
      · refine Or.inr ?_
        exact syncLoop_keys_mono conv extract snap ks2 _ k
          (updateCache_key_mem cache k _)
      · exact ih _ k h2

theorem syncLoop_all_hit (conv : PathConv) (extract : String → Profile)
    (snap : List String) (ks : List String) :
    ∀ (cache : List (String × CacheRec)), (∀ k ∈ ks, k ∈ snap) →
      (syncLoop conv extract snap ks cache).cache = cache
      ∧ ∀ k, Ev.runKmeans k ∉ (syncLoop conv extract snap ks cache).trace := by
  induction ks with
  | nil =>
    intro cache _
    exact ⟨rfl, fun k h => by cases h⟩
  | cons k0 ks2 ih =>
    intro cache hall
    have hk0 : k0 ∈ snap := hall k0 (List.mem_cons_self _ _)
    have ih2 := ih cache (fun x hx => hall x (List.mem_cons_of_mem _ hx))
    constructor
    · simp only [syncLoop, if_pos hk0]
      exact ih2.1
    · intro k h
      simp only [syncLoop, if_pos hk0, pictureFromStats] at h
      rcases List.mem_append.mp h with h1 | h1
      · rcases List.mem_cons.mp h1 with h2 | h2
        · exact Ev.noConfusion h2
        · rcases List.mem_cons.mp h2 with h3 | h3
          · exact Ev.noConfusion h3
          · cases h3
      · exact ih2.2 k h1

/-- The record content sitting in the cache for the stale key `b` in the
C1 scenario. -/
def recB : CacheRec :=
  { pathChars := ['b']
    counts := [4]
    palette := [((7 : ℚ), (7 : ℚ), (7 : ℚ))]
    dominant := ((7 : ℚ), (7 : ℚ), (7 : ℚ)) }

/-- The profile the extractor would compute for any image in the C1
scenario. -/
def profA : Profile :=
  { path := [['a']]
    counts := [1]
    palette := [((1 : ℚ), (1 : ℚ), (1 : ℚ))]
    dominant := ((1 : ℚ), (1 : ℚ), (1 : ℚ)) }

/-- C1: evaluation of the synchronizer at the failing input. The picture
directory holds exactly the image `a` and the cache holds exactly the
record `b.npz` (its image was deleted), so `b` is in
`Cached \ Images` and the spec requires `b.npz` to be deleted. After
synchronization the cache still maps `b` to its old record — the cache
keys are `[b, a]`, not `[a]` — because line 153 references the bound
method `unlink` without calling it (the code's own comment on line 152
says "Delete data files for missing pictures."). -/
theorem C1_stale_record_survives :
    List.lookup "b" (sync PathConv.posix (fun _ => profA) ["a"] [("b", recB)]).cache
      = some recB
    ∧ (sync PathConv.posix (fun _ => profA) ["a"] [("b", recB)]).cache.map Prod.fst
      = ["b", "a"] := by
  constructor <;> rfl

/-- The concrete cache record used in the C2 counterexample. -/
def recA : CacheRec :=
  { pathChars := ['a']
    counts := [5]
    palette := [((1 : ℚ), (2 : ℚ), (3 : ℚ))]
    dominant := ((1 : ℚ), (2 : ℚ), (3 : ℚ)) }

/-- C2 counterexample: on a cache hit the image file is read. Building
the `Picture` for key `a` from its cache record performs a read of the
image file — `Picture.__init__` calls `self.make_image()` on line 43
even when constructed from stats — refuting the claim that no read of
the image file occurs on the cache-hit path. -/
theorem C2_counterexample :
    Ev.readImg "a" ∈ (pictureFromStats PathConv.posix "a" recA).2 := by
  decide

/-- C2 (amended): on a cache hit, the `Picture`'s computed fields are
populated solely from the cache record (the profile is exactly the
decoded record) and no clustering and no cache write is performed — but
the image file is still read, because `make_image()` runs on the
cache-hit path too. -/
theorem C2_hit_reads_image_no_recluster (conv : PathConv) (k : String) (r : CacheRec) :
    (pictureFromStats conv k r).1 = decodeRec conv r
    ∧ (pictureFromStats conv k r).2 = [Ev.loadNpz k, Ev.readImg k]
    ∧ (∀ k2, Ev.runKmeans k2 ∉ (pictureFromStats conv k r).2)
    ∧ (∀ k2, Ev.saveNpz k2 ∉ (pictureFromStats conv k r).2) := by
  refine ⟨rfl, rfl, ?_, ?_⟩ <;>
    · intro k2 h
      simp only [pictureFromStats, List.mem_cons, List.not_mem_nil, or_false] at h
      rcases h with h | h <;> cases h

/-- C8: running the synchronizer twice in a row with no intervening
filesystem change is idempotent. After the first run every current image
has a cache record, so the second run takes the cache-hit branch for
every picture: it runs the clustering on no image (no `runKmeans` event
occurs in its trace) and leaves every cache record byte-identical to
what the first run left (the cache association lists are equal). -/
theorem C8_sync_idempotent (conv : PathConv) (extract : String → Profile)
    (pics : List String) (cache : List (String × CacheRec)) :
    (sync conv extract pics (sync conv extract pics cache).cache).cache
      = (sync conv extract pics cache).cache
    ∧ ∀ k, Ev.runKmeans k
        ∉ (sync conv extract pics (sync conv extract pics cache).cache).trace := by
  have hcov : ∀ k ∈ pics, k ∈ (sync conv extract pics cache).cache.map Prod.fst := by
    intro k hk
    show k ∈ (unlinkNeverCalled (syncLoop conv extract (cache.map Prod.fst) pics cache).cache
      ((cache.map Prod.fst).filter (fun k2 => decide (k2 ∉ pics)))).map Prod.fst
    rw [unlinkNeverCalled_eq]
    rcases syncLoop_covers conv extract (cache.map Prod.fst) pics cache k hk with h | h
    · exact syncLoop_keys_mono conv extract (cache.map Prod.fst) pics cache k h
    · exact h
  have hhit := syncLoop_all_hit conv extract
    ((sync conv extract pics cache).cache.map Prod.fst) pics
    (sync conv extract pics cache).cache hcov
  constructor
  · show unlinkNeverCalled
        (syncLoop conv extract ((sync conv extract pics cache).cache.map Prod.fst) pics
          (sync conv extract pics cache).cache).cache _
      = (sync conv extract pics cache).cache
    rw [unlinkNeverCalled_eq]
    exact hhit.1
  · intro k
    show Ev.runKmeans k ∉ (syncLoop conv extract
      ((sync conv extract pics cache).cache.map Prod.fst) pics
      (sync conv extract pics cache).cache).trace
    exact hhit.2 k

/-!
Directory enumeration filter (`Collection.__init__`, lines 133-135):
`extensions = {'.png', '.jpg', '.PNG', '.JPG'}` and
`filter(lambda path: path.is_file() and path.suffix in extensions, ...)`.
-/

/-- `pathlib.PurePath.suffix`: the substring of the file name from its
last dot, provided that dot is neither the leading character nor the
final character; otherwise the empty string. -/
def pathSuffix (s : String) : String :=
  let cs := s.toList
  match ((List.range cs.length).filter (fun i => decide (cs.getD i ' ' = '.'))).getLast? with
  | none => ""
  | some i => if 0 < i ∧ i + 1 < cs.length then String.mk (cs.drop i) else ""

/-- The extension set of line 133. -/
def imgExtensions : List String := [".png", ".jpg", ".PNG", ".JPG"]

/-- The admission predicate of line 135: a directory entry joins
`pic_set` iff it is a regular file and its suffix is in the extension
set. -/
def admitsFile (isFile : Bool) (name : String) : Bool :=
  isFile && imgExtensions.contains (pathSuffix name)

/-- C9: a regular file is admitted into the image set if and only if its
filename suffix is exactly one of `.png`, `.jpg`, `.PNG`, `.JPG`; in
particular `.jpeg`, `.Png` and `.JPEG` files are never admitted (and a
directory is never admitted even with a matching suffix). -/
theorem C9_extension_filter :
    (∀ name, admitsFile true name = true ↔ pathSuffix name ∈ imgExtensions)
    ∧ admitsFile true "a.jpeg" = false
    ∧ admitsFile true "a.Png" = false
    ∧ admitsFile true "a.JPEG" = false
    ∧ admitsFile false "a.png" = false
    ∧ admitsFile true "a.png" = true
    ∧ admitsFile true "b.JPG" = true
    ∧ admitsFile true "archive.tar.jpg" = true
    ∧ admitsFile true ".png" = false := by
  refine ⟨?_, ?_, ?_, ?_, ?_, ?_, ?_, ?_, ?_⟩
  · intro name
    simp [admitsFile, List.contains_iff_exists_mem_beq, beq_iff_eq, eq_comm]
  all_goals decide

end ImgColor
